import Mathlib

/-!
Shallow embedding of the feature-store serving and storage subsystem:
the durable store (`src/store/postgres.py`), the cache tier
(`src/store/redis_cache.py`), the serving routes (`src/api/routes.py`
with the global exception handler of `src/api/main.py`) and the settings
(`src/config/settings.py`).  Timestamps are modelled as integers (UTC
seconds); JSON values as a small inductive.
-/

namespace FeatureStoreSpec

/-- JSON-typed payload values stored in `feature_values.value` and in
cache records. -/
inductive JsonVal where
  | jnum (n : Int)
  | jstr (s : String)
  | jbool (b : Bool)
  | jnull
deriving DecidableEq, Repr

/-- JSON metadata map attached to a feature value row. -/
abbrev Metadata := List (String × JsonVal)

/-- Row of the `features` registry table, restricted to the columns the
serving path joins on (`id`, `name`). -/
structure FeatureRow where
  id : Nat
  name : String
deriving DecidableEq, Repr

/-- Row of the `feature_values` table: unique key
(feature_id, entity_id, timestamp), JSONB value and metadata. -/
structure ValueRow where
  feature_id : Nat
  entity_id : String
  timestamp : Int
  value : JsonVal
  metadata : Metadata
deriving DecidableEq, Repr

/-- Result row of the join `feature_values JOIN features ON
f.id = fv.feature_id` selected by `FeatureStore.get_features`. -/
structure JoinedRow where
  entity_id : String
  feature_name : String
  value : JsonVal
  timestamp : Int
  metadata : Metadata
deriving DecidableEq, Repr

/-- The durable database: the `features` table and the `feature_values`
table. -/
structure Database where
  features : List FeatureRow
  feature_values : List ValueRow
deriving DecidableEq, Repr

namespace FeatureStore

/-- Rows of the SQL join `feature_values fv JOIN features f ON
f.id = fv.feature_id`, producing one joined row per matching pair. -/
def joinRows (db : Database) : List JoinedRow :=
  db.feature_values.flatMap (fun fv =>
    (db.features.filter (fun f => f.id == fv.feature_id)).map (fun f =>
      { entity_id := fv.entity_id, feature_name := f.name,
        value := fv.value, timestamp := fv.timestamp, metadata := fv.metadata }))

/-- WHERE clause of `get_features`: `fv.entity_id = ANY(entity_ids) AND
f.name = ANY(feature_names) AND fv.timestamp <= as_of`. -/
def candidates (db : Database) (entity_ids feature_names : List String)
    (asOf : Int) : List JoinedRow :=
  (joinRows db).filter (fun r =>
    decide (r.entity_id ∈ entity_ids ∧ r.feature_name ∈ feature_names ∧
      r.timestamp ≤ asOf))

/-- Grouping key of the `DISTINCT ON (entity_id, name)` clause. -/
def pairKey (r : JoinedRow) : String × String :=
  (r.entity_id, r.feature_name)

/-- One step of `DISTINCT ON (entity_id, name) ... ORDER BY entity_id,
name, timestamp DESC`: keep one row per (entity_id, feature_name) group,
the one with the greatest timestamp; the tie-break keeps the earlier row
(a deterministic choice, as the ordering leaves ties unspecified). -/
def insertMax : List JoinedRow → JoinedRow → List JoinedRow
  | [], r => [r]
  | s :: acc, r =>
    if pairKey s = pairKey r then
      (if s.timestamp < r.timestamp then r else s) :: acc
    else
      s :: insertMax acc r

/-- DISTINCT ON over a row list: fold `insertMax` over the rows. -/
def selectDistinct (rows : List JoinedRow) : List JoinedRow :=
  rows.foldl insertMax []

/-- Nested result map of `get_features`:
`{entity_id: {feature_name: row}}`, as association lists. -/
abbrev ResultMap := List (String × List (String × JoinedRow))

/-- Insert `(k, v)` into an association list, replacing the first entry
with key `k` (dict assignment semantics). -/
def setPair (l : List (String × JoinedRow)) (k : String) (v : JoinedRow) :
    List (String × JoinedRow) :=
  match l with
  | [] => [(k, v)]
  | (k₀, v₀) :: rest =>
    if k₀ = k then (k, v) :: rest else (k₀, v₀) :: setPair rest k v

/-- One step of the reshape loop in `get_features`:
`result[entity_id][feature_name] = row`. -/
def insertNested (acc : ResultMap) (r : JoinedRow) : ResultMap :=
  match acc with
  | [] => [(r.entity_id, [(r.feature_name, r)])]
  | (e, fs) :: rest =>
    if e = r.entity_id then (e, setPair fs r.feature_name r) :: rest
    else (e, fs) :: insertNested rest r

/-- Reshape the selected rows to the nested dict
`{entity_id: {feature_name: {value, timestamp, metadata}}}`. -/
def reshape (rows : List JoinedRow) : ResultMap :=
  rows.foldl insertNested []

/-- Embedding of `FeatureStore.get_features`: point-in-time query
followed by the reshape into a nested map. -/
def getFeatures (db : Database) (entity_ids feature_names : List String)
    (asOf : Int) : ResultMap :=
  reshape (selectDistinct (candidates db entity_ids feature_names asOf))

/-- Lookup of an entity's feature map in a `ResultMap`
(`db_results.get(entity_id)`). -/
def lookupEntity : ResultMap → String → Option (List (String × JoinedRow))
  | [], _ => none
  | (e₀, fs) :: rest, e => if e₀ = e then some fs else lookupEntity rest e

/-- Lookup of one feature in an entity's feature map. -/
def lookupName : List (String × JoinedRow) → String → Option JoinedRow
  | [], _ => none
  | (n₀, r) :: rest, n => if n₀ = n then some r else lookupName rest n

/-- Lookup of one (entity, feature) slot in a `ResultMap`. -/
def lookupFeature (m : ResultMap) (e n : String) : Option JoinedRow :=
  (lookupEntity m e).bind (fun fs => lookupName fs n)

/-- First row of a row list whose group key is (e, n). -/
def lookupPair : List JoinedRow → String → String → Option JoinedRow
  | [], _, _ => none
  | r :: rows, e, n => if pairKey r = (e, n) then some r else lookupPair rows e n

/-- Last row of a row list whose group key is (e, n), starting from a
default (dict-overwrite semantics of the reshape loop). -/
def lastFrom (o : Option JoinedRow) (rows : List JoinedRow) (e n : String) :
    Option JoinedRow :=
  rows.foldl (fun o r => if pairKey r = (e, n) then some r else o) o

/-- Running maximum of the per-group timestamp selection, starting from
an already selected row. -/
def bestFrom (o : Option JoinedRow) (rows : List JoinedRow) (e n : String) :
    Option JoinedRow :=
  rows.foldl (fun o r =>
    if pairKey r = (e, n) then
      some (match o with
            | none => r
            | some m => if m.timestamp < r.timestamp then r else m)
    else o) o

/-- Unique key of a `feature_values` row:
(feature_id, entity_id, timestamp). -/
def rowKey (r : ValueRow) : Nat × String × Int :=
  (r.feature_id, r.entity_id, r.timestamp)

/-- One `INSERT ... ON CONFLICT (feature_id, entity_id, timestamp) DO
UPDATE SET value = EXCLUDED.value, metadata = EXCLUDED.metadata`: replace
the row with the same key if present, insert otherwise. -/
def upsert : List ValueRow → ValueRow → List ValueRow
  | [], r => [r]
  | s :: st, r =>
    if rowKey s = rowKey r then
      { s with value := r.value, metadata := r.metadata } :: st
    else
      s :: upsert st r

/-- Embedding of the state change of `FeatureStore.write_features`: the
batch upserts run in order in one transaction. -/
def writeFeatures (batch : List ValueRow) (table : List ValueRow) :
    List ValueRow :=
  batch.foldl upsert table

/-- Embedding of `FeatureStore.write_features` as an operation: the empty
batch returns before acquiring a connection (`if not features: return`);
a non-empty batch acquires a connection and executes the upserts, failing
when the store is down.  The `Nat` counts connections acquired. -/
def writeFeaturesOp (storeOk : Bool) (batch : List ValueRow)
    (table : List ValueRow) : Except Unit (List ValueRow × Nat) :=
  if batch.isEmpty then .ok (table, 0)
  else if storeOk then .ok (writeFeatures batch table, 1)
  else .error ()

end FeatureStore

/-- Payload of one cache record, the msgpack dict
`{value, timestamp, freshness_seconds}`; `freshness_seconds` is read back
with `.get`, so it is optional. -/
structure CachePayload where
  value : JsonVal
  timestamp : Int
  freshness_seconds : Option Int
deriving DecidableEq, Repr

/-- One stored cache entry: payload plus the TTL it was set with. -/
structure CacheEntry where
  payload : CachePayload
  ttl : Nat
deriving DecidableEq, Repr

/-- State of the Redis cache tier: the stored key/entry pairs plus a flag
modelling whether the underlying client operations fail. -/
structure CacheState where
  entries : List (String × CacheEntry)
  failing : Bool
deriving DecidableEq, Repr

namespace FeatureCache

/-- Lookup of a key in the cache entries (first match). -/
def lookupKey : List (String × CacheEntry) → String → Option CacheEntry
  | [], _ => none
  | (k₀, v) :: rest, k => if k₀ = k then some v else lookupKey rest k

/-- Embedding of `FeatureCache.get_many`: pipelined GETs in input order;
on a client failure the `except` branch returns `[None] * len(keys)`. -/
def getMany (c : CacheState) (keys : List String) : List (Option CachePayload) :=
  if c.failing then List.replicate keys.length none
  else keys.map (fun k => (lookupKey c.entries k).map (·.payload))

/-- SETEX of a single key: replace the first entry with the key, append
otherwise. -/
def setKey (es : List (String × CacheEntry)) (k : String) (v : CacheEntry) :
    List (String × CacheEntry) :=
  match es with
  | [] => [(k, v)]
  | (k₀, v₀) :: rest =>
    if k₀ = k then (k, v) :: rest else (k₀, v₀) :: setKey rest k v

/-- Embedding of `FeatureCache.set_many`: pipelined SETEX of every pair
with one shared TTL; a client failure is logged and swallowed, leaving
the state unchanged. -/
def setMany (c : CacheState) (data : List (String × CachePayload))
    (ttl : Nat) : CacheState :=
  if data.isEmpty then c
  else if c.failing then c
  else { c with
         entries := data.foldl (fun es p => setKey es p.1 ⟨p.2, ttl⟩) c.entries }

/-- Glob match for the patterns the service uses, `"{entity_id}:*"`: a
literal prefix followed by a trailing star. -/
def matchesGlob (pattern key : String) : Bool :=
  pattern.endsWith "*" && key.startsWith (pattern.dropRight 1)

/-- Underlying client scan-and-delete used by `invalidate`: enumerates
the keys matching the pattern and deletes them, returning the deleted
count; fails when the client fails. -/
def clientScanDelete (c : CacheState) (pattern : String) :
    Except Unit (CacheState × Nat) :=
  if c.failing then .error ()
  else
    let hit := c.entries.filter (fun p => matchesGlob pattern p.1)
    .ok ({ c with entries := c.entries.filter (fun p => !matchesGlob pattern p.1) },
         hit.length)

/-- Embedding of `FeatureCache.invalidate`: runs the scan-and-delete and
catches any exception (`except Exception: ... return 0`), so the caller
always receives a count. -/
def invalidate (c : CacheState) (pattern : String) :
    Except Unit (CacheState × Nat) :=
  match clientScanDelete c pattern with
  | .ok r => .ok r
  | .error _ => .ok (c, 0)

end FeatureCache

/-- Response item `FeatureValue` of the API models: value, timestamp and
optional freshness. -/
structure FeatureValue where
  value : JsonVal
  timestamp : Int
  freshness_seconds : Option Int
deriving DecidableEq, Repr

/-- Embedded `OnlineFeatureResponse`: the features map (association
list), source tag and cache-hit flag. -/
structure OnlineResponse where
  entity_id : String
  features : List (String × FeatureValue)
  source : String
  cache_hit : Bool
deriving DecidableEq, Repr

/-- Relevant slice of `Settings` (`src/config/settings.py`): the default
cache TTL in seconds, with its default value 3600. -/
structure Settings where
  cache_ttl_seconds : Nat := 3600
deriving DecidableEq, Repr

namespace Routes

/-- Cache key built by the route: `f"{entity_id}:{feature_name}"`. -/
def cacheKey (entity_id feature_name : String) : String :=
  entity_id ++ ":" ++ feature_name

/-- Source tag computed at the end of `get_online_features`:
`"cache" if cache_hit and not missing_features else "database"`. -/
def mkSource (cache_hit : Bool) (missing : List String) : String :=
  if cache_hit && missing.isEmpty then "cache" else "database"

/-- Requested feature names paired with their cache slots, in input
order (the loop `zip(cache_keys, cached)` paired back with
`request.feature_names[i]`). -/
def cachedPairs (c : CacheState) (entity_id : String) (feature_names : List String) :
    List (String × Option CachePayload) :=
  feature_names.zip (FeatureCache.getMany c (feature_names.map (cacheKey entity_id)))

/-- Cache hits paired with their feature names, in input order
(the `value is not None` branch of the loop). -/
def hitFeatures (pairs : List (String × Option CachePayload)) :
    List (String × FeatureValue) :=
  pairs.filterMap (fun p =>
    p.2.map (fun v => (p.1, ⟨v.value, v.timestamp, v.freshness_seconds⟩)))

/-- Feature names whose cache slot was absent, in input order
(the `else` branch of the loop building `missing_features`). -/
def missingOf (pairs : List (String × Option CachePayload)) : List String :=
  pairs.filterMap (fun p => if p.2.isSome then none else some p.1)

/-- Features built from the durable-store rows for one entity: the
freshness is `nowAge - timestamp` (`(datetime.utcnow() -
feature_data['timestamp']).total_seconds()`), without clamping. -/
def dbFeatures (entityFeatures : List (String × JoinedRow)) (nowAge : Int) :
    List (String × FeatureValue) :=
  entityFeatures.map (fun q =>
    (q.1, ⟨q.2.value, q.2.timestamp, some (nowAge - q.2.timestamp)⟩))

/-- Cache refill entries built from the durable-store rows
(`cache_data[f"{entity_id}:{feature_name}"] = {...}`). -/
def dbCacheData (entity_id : String)
    (entityFeatures : List (String × JoinedRow)) (nowAge : Int) :
    List (String × CachePayload) :=
  entityFeatures.map (fun q =>
    (cacheKey entity_id q.1, ⟨q.2.value, q.2.timestamp, some (nowAge - q.2.timestamp)⟩))

/-- Feature map of the requested entity in the durable-store result
(`db_results.get(request.entity_id, {})`). -/
def entityFeaturesOf (db : Database) (entity_id : String)
    (feature_names : List String) (asOf : Int) : List (String × JoinedRow) :=
  (FeatureStore.lookupEntity
    (FeatureStore.getFeatures db [entity_id] feature_names asOf) entity_id).getD []

/-- Embedding of the route `get_online_features`: cache-first read,
durable-store fallback for misses (one query, raising when the store is
down), best-effort refill with TTL 3600, and the response.  The route
reads the wall clock twice — `nowQuery` is the `datetime.utcnow()`
passed to `store.get_features`, `nowAge` the later `datetime.utcnow()`
used to compute freshness (the two may differ, and under clock
adjustment `nowAge` may lie before `nowQuery`).  Returns the response,
the new cache state and the number of durable-store queries issued; an
unhandled store exception is `Except.error`. -/
def getOnlineFeatures (db : Database) (storeOk : Bool) (c : CacheState)
    (entity_id : String) (feature_names : List String)
    (nowQuery nowAge : Int) :
    Except Unit (OnlineResponse × CacheState × Nat) :=
  let pairs := cachedPairs c entity_id feature_names
  let features₀ := hitFeatures pairs
  let missing := missingOf pairs
  let cache_hit := pairs.all (fun p => p.2.isSome)
  if missing.isEmpty then
    .ok ({ entity_id := entity_id, features := features₀,
           source := mkSource cache_hit missing, cache_hit := cache_hit }, c, 0)
  else if !storeOk then
    .error ()
  else
    let entityFeatures := entityFeaturesOf db entity_id missing nowQuery
    let cacheData := dbCacheData entity_id entityFeatures nowAge
    let c' := if cacheData.isEmpty then c else FeatureCache.setMany c cacheData 3600
    .ok ({ entity_id := entity_id,
           features := features₀ ++ dbFeatures entityFeatures nowAge,
           source := mkSource cache_hit missing, cache_hit := cache_hit }, c', 1)

/-- HTTP status the service surfaces for the online read: 200 on
success; an unhandled exception reaches the `global_exception_handler`
in `src/api/main.py`, which answers 500. -/
def onlineHttpStatus (r : Except Unit (OnlineResponse × CacheState × Nat)) : Nat :=
  match r with
  | .ok _ => 200
  | .error _ => 500

end Routes

/-- Sample database: two registered features `a` (id 1) and `b` (id 2)
for entity `u`, with one value row each. -/
def exDb : Database :=
  { features := [⟨1, "a"⟩, ⟨2, "b"⟩],
    feature_values := [⟨1, "u", 50, .jnum 30, []⟩, ⟨2, "u", 60, .jnum 7, []⟩] }

/-- Sample cache state: empty and healthy. -/
def exEmptyCache : CacheState := ⟨[], false⟩

/-- Sample cache state holding feature `a` of entity `u`. -/
def exCacheA : CacheState := ⟨[("u:a", ⟨⟨.jnum 30, 50, some 0⟩, 60⟩)], false⟩

/-- Sample cache state whose underlying client fails. -/
def exFailingCache : CacheState := ⟨[], true⟩

/-! Lemmas about the write path (`FeatureStore.write_features`). -/

namespace FeatureStore

/-- Membership of a key among the stored `feature_values` rows. -/
def containsKey (st : List ValueRow) (k : Nat × String × Int) : Bool :=
  st.any (fun s => decide (rowKey s = k))

/-- First stored row with a given key. -/
def lookupRow (st : List ValueRow) (k : Nat × String × Int) : Option ValueRow :=
  st.find? (fun s => decide (rowKey s = k))

theorem overwrite_eq_of_rowKey_eq {s r : ValueRow} (h : rowKey s = rowKey r) :
    { s with value := r.value, metadata := r.metadata } = r := by
  cases s; cases r
  simp only [rowKey, Prod.mk.injEq] at h
  simp_all

theorem rowKey_overwrite (s r : ValueRow) :
    rowKey { s with value := r.value, metadata := r.metadata } = rowKey s := rfl

theorem containsKey_cons (s : ValueRow) (st : List ValueRow) (k : Nat × String × Int) :
    containsKey (s :: st) k = (decide (rowKey s = k) || containsKey st k) := rfl

theorem upsert_cons_pos {s : ValueRow} (st : List ValueRow) {r : ValueRow}
    (h : rowKey s = rowKey r) :
    upsert (s :: st) r = { s with value := r.value, metadata := r.metadata } :: st := by
  rw [upsert, if_pos h]

theorem upsert_cons_neg {s : ValueRow} (st : List ValueRow) {r : ValueRow}
    (h : ¬rowKey s = rowKey r) :
    upsert (s :: st) r = s :: upsert st r := by
  rw [upsert, if_neg h]

theorem containsKey_upsert_self (st : List ValueRow) (r : ValueRow) :
    containsKey (upsert st r) (rowKey r) = true := by
  induction st with
  | nil => simp [upsert, containsKey]
  | cons s st ih =>
    by_cases h : rowKey s = rowKey r
    · simp [upsert, if_pos h, containsKey, rowKey_overwrite, h]
    · simp only [upsert, if_neg h, containsKey, List.any_cons, Bool.or_eq_true]
      exact Or.inr ih

theorem containsKey_upsert_mono {st : List ValueRow} {k : Nat × String × Int}
    (r : ValueRow) (h : containsKey st k = true) :
    containsKey (upsert st r) k = true := by
  induction st with
  | nil => simp [containsKey] at h
  | cons s st ih =>
    simp only [containsKey, List.any_cons, Bool.or_eq_true, decide_eq_true_eq] at h
    by_cases hs : rowKey s = rowKey r
    · simp only [upsert, if_pos hs, containsKey, List.any_cons, Bool.or_eq_true,
        decide_eq_true_eq, rowKey_overwrite]
      rcases h with h | h
      · exact Or.inl h
      · exact Or.inr (by simpa [containsKey] using h)
    · simp only [upsert, if_neg hs, containsKey, List.any_cons, Bool.or_eq_true,
        decide_eq_true_eq]
      rcases h with h | h
      · exact Or.inl h
      · exact Or.inr (by simpa [containsKey] using ih (by simpa [containsKey] using h))

theorem containsKey_writeFeatures_mono {k : Nat × String × Int}
    (b : List ValueRow) {st : List ValueRow} (h : containsKey st k = true) :
    containsKey (writeFeatures b st) k = true := by
  induction b generalizing st with
  | nil => simpa [writeFeatures]
  | cons q b ih =>
    simp only [writeFeatures, List.foldl_cons]
    exact ih (containsKey_upsert_mono q h)

theorem lookupRow_upsert_self (st : List ValueRow) (r : ValueRow) :
    lookupRow (upsert st r) (rowKey r) = some r := by
  induction st with
  | nil => simp [upsert, lookupRow]
  | cons s st ih =>
    by_cases h : rowKey s = rowKey r
    · rw [upsert, if_pos h, lookupRow,
        List.find?_cons_of_pos _ (by simp [rowKey_overwrite, h]),
        overwrite_eq_of_rowKey_eq h]
    · rw [upsert, if_neg h, lookupRow, List.find?_cons_of_neg _ (by simp [h])]
      exact ih

theorem upsert_eq_self_of_lookupRow {st : List ValueRow} {r : ValueRow}
    (h : lookupRow st (rowKey r) = some r) : upsert st r = st := by
  induction st with
  | nil => simp [lookupRow] at h
  | cons s st ih =>
    by_cases hs : rowKey s = rowKey r
    · rw [lookupRow, List.find?_cons_of_pos _ (by simp [hs])] at h
      have hsr : s = r := by injection h
      subst hsr
      simp [upsert, if_pos hs]
    · rw [lookupRow, List.find?_cons_of_neg _ (by simp [hs])] at h
      simp [upsert, if_neg hs, ih h]

theorem lookupRow_upsert_frame {st : List ValueRow} {k : Nat × String × Int}
    {r : ValueRow} (h : k ≠ rowKey r) :
    lookupRow (upsert st r) k = lookupRow st k := by
  induction st with
  | nil =>
    have h₁ : ¬rowKey r = k := fun hc => h hc.symm
    simp [upsert, lookupRow, h₁]
  | cons s st ih =>
    by_cases hs : rowKey s = rowKey r
    · have h₁ : ¬rowKey s = k := fun hc => h (hc.symm.trans hs)
      rw [upsert_cons_pos st hs, lookupRow,
        List.find?_cons_of_neg _ (by simp [rowKey_overwrite, h₁]), lookupRow,
        List.find?_cons_of_neg _ (by simp [h₁])]
    · by_cases h₂ : rowKey s = k
      · rw [upsert_cons_neg st hs, lookupRow, List.find?_cons_of_pos _ (by simp [h₂]),
          lookupRow, List.find?_cons_of_pos _ (by simp [h₂])]
      · rw [upsert_cons_neg st hs, lookupRow, List.find?_cons_of_neg _ (by simp [h₂]),
          lookupRow, List.find?_cons_of_neg _ (by simp [h₂])]
        exact ih

theorem lookupRow_writeFeatures_frame {k : Nat × String × Int}
    {b : List ValueRow} (hb : ∀ q ∈ b, rowKey q ≠ k) (st : List ValueRow) :
    lookupRow (writeFeatures b st) k = lookupRow st k := by
  induction b generalizing st with
  | nil => simp [writeFeatures]
  | cons q b ih =>
    simp only [writeFeatures, List.foldl_cons]
    have hq : k ≠ rowKey q := fun hc => hb q (by simp) hc.symm
    calc lookupRow (List.foldl upsert (upsert st q) b) k
        = lookupRow (writeFeatures b (upsert st q)) k := rfl
      _ = lookupRow (upsert st q) k :=
          ih (fun p hp => hb p (List.mem_cons_of_mem _ hp)) (upsert st q)
      _ = lookupRow st k := lookupRow_upsert_frame hq

theorem upsert_collapse {st : List ValueRow} {r q : ValueRow}
    (hc : containsKey st (rowKey r) = true) (hk : rowKey q = rowKey r) :
    upsert (upsert st r) q = upsert st q := by
  induction st with
  | nil => simp [containsKey] at hc
  | cons s st ih =>
    rw [containsKey_cons] at hc
    by_cases hs : rowKey s = rowKey r
    · have h₁ : rowKey s = rowKey q := hs.trans hk.symm
      have h₂ : rowKey { s with value := r.value, metadata := r.metadata } = rowKey q :=
        (rowKey_overwrite s r).trans h₁
      rw [upsert_cons_pos st hs, upsert_cons_pos st h₂, upsert_cons_pos st h₁]
    · have hs' : ¬rowKey s = rowKey q := fun hc₂ => hs (hc₂.trans hk)
      have hc' : containsKey st (rowKey r) = true := by
        simp only [Bool.or_eq_true, decide_eq_true_eq] at hc
        rcases hc with h | h
        · exact absurd h hs
        · exact h
      rw [upsert_cons_neg st hs, upsert_cons_neg (upsert st r) hs',
        upsert_cons_neg st hs', ih hc']

theorem upsert_comm_of_containsKey {st : List ValueRow} {r q : ValueRow}
    (hc : containsKey st (rowKey r) = true) (hk : rowKey q ≠ rowKey r) :
    upsert (upsert st r) q = upsert (upsert st q) r := by
  induction st with
  | nil => simp [containsKey] at hc
  | cons s st ih =>
    rw [containsKey_cons] at hc
    by_cases hs : rowKey s = rowKey r
    · have h₂ : ¬rowKey s = rowKey q := fun hc₂ => hk (hc₂.symm.trans hs)
      have h₁ : ¬rowKey { s with value := r.value, metadata := r.metadata } = rowKey q :=
        fun hc₂ => h₂ ((rowKey_overwrite s r).symm.trans hc₂)
      rw [upsert_cons_pos st hs, upsert_cons_neg st h₂,
        upsert_cons_neg st h₁, upsert_cons_pos (upsert st q) hs]
    · have hc' : containsKey st (rowKey r) = true := by
        simp only [Bool.or_eq_true, decide_eq_true_eq] at hc
        rcases hc with h | h
        · exact absurd h hs
        · exact h
      by_cases h₂ : rowKey s = rowKey q
      · have h₃ : ¬rowKey { s with value := q.value, metadata := q.metadata } = rowKey r :=
          fun hc₂ => hs ((rowKey_overwrite s q).symm.trans hc₂)
      -- replace-at-head for q commutes with the deeper upsert of r
        rw [upsert_cons_neg st hs, upsert_cons_pos (upsert st r) h₂,
          upsert_cons_pos st h₂, upsert_cons_neg st h₃]
      · rw [upsert_cons_neg st hs, upsert_cons_neg (upsert st r) h₂,
          upsert_cons_neg st h₂, upsert_cons_neg (upsert st q) hs, ih hc']

theorem writeFeatures_absorb {b : List ValueRow} {st : List ValueRow} {r : ValueRow}
    (hc : containsKey st (rowKey r) = true) (hb : ∃ q ∈ b, rowKey q = rowKey r) :
    writeFeatures b (upsert st r) = writeFeatures b st := by
  induction b generalizing st with
  | nil => simp at hb
  | cons q b ih =>
    simp only [writeFeatures, List.foldl_cons]
    by_cases hq : rowKey q = rowKey r
    · rw [show List.foldl upsert (upsert (upsert st r) q) b
          = List.foldl upsert (upsert st q) b by rw [upsert_collapse hc hq]]
    · have hb' : ∃ p ∈ b, rowKey p = rowKey r := by
        rcases hb with ⟨p, hp, hpk⟩
        rcases List.mem_cons.mp hp with h | h
        · exact absurd (h ▸ hpk) hq
        · exact ⟨p, h, hpk⟩
      rw [upsert_comm_of_containsKey hc hq]
      exact ih (containsKey_upsert_mono q hc) hb'

end FeatureStore

/-! Lemmas about the point-in-time query (`FeatureStore.get_features`). -/

namespace FeatureStore

theorem lastFrom_cons (o : Option JoinedRow) (r : JoinedRow) (rows : List JoinedRow)
    (e n : String) :
    lastFrom o (r :: rows) e n =
      lastFrom (if pairKey r = (e, n) then some r else o) rows e n := rfl

theorem setPair_lookupName (fs : List (String × JoinedRow)) (k : String)
    (v : JoinedRow) (n : String) :
    lookupName (setPair fs k v) n = if k = n then some v else lookupName fs n := by
  induction fs with
  | nil => by_cases h : k = n <;> simp [setPair, lookupName, h]
  | cons p rest ih =>
    obtain ⟨k₀, v₀⟩ := p
    by_cases h₀ : k₀ = k
    · subst h₀
      by_cases h : k₀ = n <;> simp [setPair, lookupName, h]
    · by_cases h : k₀ = n
      · have hnk : ¬n = k := fun hc => h₀ (h.trans hc)
        have hkn : ¬k = n := fun hc => hnk hc.symm
        simp [setPair, h₀, lookupName, h, hnk, hkn]
      · simp [setPair, h₀, lookupName, h, ih]

theorem insertNested_lookupFeature (acc : ResultMap) (r : JoinedRow) (e n : String) :
    lookupFeature (insertNested acc r) e n =
      if pairKey r = (e, n) then some r else lookupFeature acc e n := by
  induction acc with
  | nil =>
    by_cases he : r.entity_id = e <;> by_cases hn : r.feature_name = n <;>
      simp [insertNested, lookupFeature, lookupEntity, lookupName, pairKey,
        Prod.ext_iff, he, hn]
  | cons p rest ih =>
    obtain ⟨e₀, fs⟩ := p
    simp only [insertNested]
    by_cases h₀ : e₀ = r.entity_id
    · rw [if_pos h₀]
      by_cases he : e₀ = e
      · by_cases hn : r.feature_name = n
        · have hk : pairKey r = (e, n) := by
            simp [pairKey, h₀.symm.trans he, hn]
          simp [lookupFeature, lookupEntity, he, hk, setPair_lookupName, hn]
        · have hk : ¬pairKey r = (e, n) := by simp [pairKey, Prod.ext_iff, hn]
          simp [lookupFeature, lookupEntity, he, hk, setPair_lookupName, hn]
      · have hre : ¬r.entity_id = e := fun hc => he (h₀.trans hc)
        have hk : ¬pairKey r = (e, n) := by simp [pairKey, Prod.ext_iff, hre]
        simp [lookupFeature, lookupEntity, he, hk]
    · rw [if_neg h₀]
      by_cases he : e₀ = e
      · have hre : ¬r.entity_id = e := fun hc => h₀ (he.trans hc.symm)
        have hk : ¬pairKey r = (e, n) := by simp [pairKey, Prod.ext_iff, hre]
        simp [lookupFeature, lookupEntity, he, hk]
      · simp only [lookupFeature, lookupEntity, if_neg he]
        simpa only [lookupFeature] using ih

theorem foldl_insertNested_lookupFeature (rows : List JoinedRow) (acc : ResultMap)
    (e n : String) :
    lookupFeature (rows.foldl insertNested acc) e n =
      lastFrom (lookupFeature acc e n) rows e n := by
  induction rows generalizing acc with
  | nil => rfl
  | cons r rows ih =>
    rw [List.foldl_cons, ih (insertNested acc r), lastFrom_cons,
      insertNested_lookupFeature]

theorem reshape_lookupFeature (rows : List JoinedRow) (e n : String) :
    lookupFeature (reshape rows) e n = lastFrom none rows e n :=
  foldl_insertNested_lookupFeature rows [] e n

theorem lastFrom_override (rows : List JoinedRow) (o : Option JoinedRow)
    (e n : String) :
    lastFrom o rows e n =
      match lastFrom none rows e n with
      | some x => some x
      | none => o := by
  induction rows generalizing o with
  | nil => simp [lastFrom]
  | cons r rows ih =>
    rw [lastFrom_cons, lastFrom_cons, ih, ih (if pairKey r = (e, n) then some r else none)]
    by_cases hc : pairKey r = (e, n)
    · simp only [if_pos hc]
      cases lastFrom none rows e n <;> rfl
    · simp only [if_neg hc]
      cases lastFrom none rows e n <;> rfl

theorem lastFrom_eq_none_iff (rows : List JoinedRow) (e n : String) :
    lastFrom none rows e n = none ↔ ∀ r ∈ rows, pairKey r ≠ (e, n) := by
  induction rows with
  | nil => simp [lastFrom]
  | cons r rows ih =>
    rw [lastFrom_cons, lastFrom_override]
    constructor
    · intro h
      rcases hrest : lastFrom none rows e n with _ | x
      · rw [hrest] at h
        simp only at h
        intro q hq
        rcases List.mem_cons.mp hq with hq | hq
        · subst hq
          intro hc
          rw [if_pos hc] at h
          exact Option.noConfusion h
        · exact (ih.mp hrest) q hq
      · rw [hrest] at h
        exact Option.noConfusion h
    · intro h
      have hrest : lastFrom none rows e n = none :=
        ih.mpr (fun q hq => h q (List.mem_cons_of_mem _ hq))
      rw [hrest]
      simp only
      rw [if_neg (h r (List.mem_cons_self r rows))]

theorem lookupPair_eq_lastFrom_of_nodup {rows : List JoinedRow} (e n : String)
    (hnd : (rows.map pairKey).Nodup) :
    lookupPair rows e n = lastFrom none rows e n := by
  induction rows with
  | nil => simp [lookupPair, lastFrom]
  | cons r rows ih =>
    rw [List.map_cons, List.nodup_cons] at hnd
    rw [lastFrom_cons, lastFrom_override]
    by_cases hc : pairKey r = (e, n)
    · have hrest : lastFrom none rows e n = none := by
        rw [lastFrom_eq_none_iff]
        intro q hq hqk
        exact hnd.1 (hc ▸ hqk ▸ List.mem_map_of_mem pairKey hq)
      rw [hrest]
      simp [lookupPair, hc]
    · have := ih hnd.2
      rcases hrest : lastFrom none rows e n with _ | x <;>
        simp [lookupPair, hc, this, hrest]

theorem bestFrom_cons (o : Option JoinedRow) (r : JoinedRow) (rows : List JoinedRow)
    (e n : String) :
    bestFrom o (r :: rows) e n =
      bestFrom
        (if pairKey r = (e, n) then
          some (match o with
                | none => r
                | some m => if m.timestamp < r.timestamp then r else m)
        else o) rows e n := rfl

theorem insertMax_lookupPair (acc : List JoinedRow) (r : JoinedRow) (e n : String) :
    lookupPair (insertMax acc r) e n =
      if pairKey r = (e, n) then
        some (match lookupPair acc e n with
              | none => r
              | some m => if m.timestamp < r.timestamp then r else m)
      else lookupPair acc e n := by
  induction acc with
  | nil => by_cases hr : pairKey r = (e, n) <;> simp [insertMax, lookupPair, hr]
  | cons s acc ih =>
    simp only [insertMax]
    by_cases hsr : pairKey s = pairKey r
    · rw [if_pos hsr]
      by_cases hr : pairKey r = (e, n)
      · have hs : pairKey s = (e, n) := hsr.trans hr
        have hts : pairKey (if s.timestamp < r.timestamp then r else s) = (e, n) := by
          by_cases ht : s.timestamp < r.timestamp <;> simp [ht, hr, hs]
        by_cases ht : s.timestamp < r.timestamp <;>
          simp [lookupPair, hts, hs, hr, ht]
      · have hs : ¬pairKey s = (e, n) := fun hc => hr (hsr.symm.trans hc)
        have hts : ¬pairKey (if s.timestamp < r.timestamp then r else s) = (e, n) := by
          by_cases ht : s.timestamp < r.timestamp <;> simp [ht, hr, hs]
        simp [lookupPair, hts, hs, hr]
    · rw [if_neg hsr]
      by_cases hs : pairKey s = (e, n)
      · have hr : ¬pairKey r = (e, n) := fun hc => hsr (hs.trans hc.symm)
        simp [lookupPair, hs, hr]
      · simp [lookupPair, hs, ih]

theorem foldl_insertMax_lookupPair (rows : List JoinedRow) (acc : List JoinedRow)
    (e n : String) :
    lookupPair (rows.foldl insertMax acc) e n =
      bestFrom (lookupPair acc e n) rows e n := by
  induction rows generalizing acc with
  | nil => rfl
  | cons r rows ih =>
    rw [List.foldl_cons, ih (insertMax acc r), bestFrom_cons, insertMax_lookupPair]

theorem selectDistinct_lookupPair (rows : List JoinedRow) (e n : String) :
    lookupPair (selectDistinct rows) e n = bestFrom none rows e n :=
  foldl_insertMax_lookupPair rows [] e n

theorem bestFrom_spec {rows : List JoinedRow} {o : Option JoinedRow}
    {m : JoinedRow} {e n : String} (h : bestFrom o rows e n = some m) :
    ((m ∈ rows ∧ pairKey m = (e, n)) ∨ o = some m) ∧
    (∀ r ∈ rows, pairKey r = (e, n) → r.timestamp ≤ m.timestamp) ∧
    (∀ b, o = some b → b.timestamp ≤ m.timestamp) := by
  induction rows generalizing o with
  | nil =>
    simp only [bestFrom, List.foldl_nil] at h
    refine ⟨Or.inr h, by simp, fun b hb => ?_⟩
    rw [hb] at h
    injection h with h
    exact le_of_eq (by rw [h])
  | cons r rows ih =>
    rw [bestFrom_cons] at h
    by_cases hc : pairKey r = (e, n)
    · rw [if_pos hc] at h
      rcases o with _ | b
      · obtain ⟨hmem, hmax, hprev⟩ := ih h
        refine ⟨?_, ?_, ?_⟩
        · rcases hmem with ⟨hm, hk⟩ | hm
          · exact Or.inl ⟨List.mem_cons_of_mem _ hm, hk⟩
          · injection hm with hm
            exact Or.inl ⟨hm ▸ List.mem_cons_self r rows, hm ▸ hc⟩
        · intro q hq hqk
          rcases List.mem_cons.mp hq with hq | hq
          · subst hq
            exact hprev q rfl
          · exact hmax q hq hqk
        · intro b hb
          exact Option.noConfusion hb
      · change bestFrom (some (if b.timestamp < r.timestamp then r else b)) rows e n
            = some m at h
        obtain ⟨hmem, hmax, hprev⟩ := ih h
        have hbr : (if b.timestamp < r.timestamp then r else b).timestamp ≤ m.timestamp :=
          hprev _ rfl
        have hrle : r.timestamp ≤ m.timestamp := by
          by_cases ht : b.timestamp < r.timestamp
          · simpa [ht] using hbr
          · have : b.timestamp ≤ m.timestamp := by simpa [ht] using hbr
            omega
        have hble : b.timestamp ≤ m.timestamp := by
          by_cases ht : b.timestamp < r.timestamp
          · have : r.timestamp ≤ m.timestamp := by simpa [ht] using hbr
            omega
          · simpa [ht] using hbr
        refine ⟨?_, ?_, ?_⟩
        · rcases hmem with ⟨hm, hk⟩ | hm
          · exact Or.inl ⟨List.mem_cons_of_mem _ hm, hk⟩
          · injection hm with hm
            by_cases ht : b.timestamp < r.timestamp
            · rw [if_pos ht] at hm
              exact Or.inl ⟨hm ▸ List.mem_cons_self r rows, hm ▸ hc⟩
            · rw [if_neg ht] at hm
              exact Or.inr (congrArg some hm)
        · intro q hq hqk
          rcases List.mem_cons.mp hq with hq | hq
          · subst hq
            exact hrle
          · exact hmax q hq hqk
        · intro b' hb'
          injection hb' with hb'
          exact hb' ▸ hble
    · rw [if_neg hc] at h
      obtain ⟨hmem, hmax, hprev⟩ := ih h
      refine ⟨?_, ?_, hprev⟩
      · rcases hmem with ⟨hm, hk⟩ | hm
        · exact Or.inl ⟨List.mem_cons_of_mem _ hm, hk⟩
        · exact Or.inr hm
      · intro q hq hqk
        rcases List.mem_cons.mp hq with hq | hq
        · exact absurd (hq ▸ hqk) hc
        · exact hmax q hq hqk

theorem bestFrom_eq_none_iff (rows : List JoinedRow) (o : Option JoinedRow)
    (e n : String) :
    bestFrom o rows e n = none ↔ o = none ∧ ∀ r ∈ rows, pairKey r ≠ (e, n) := by
  induction rows generalizing o with
  | nil => simp [bestFrom]
  | cons r rows ih =>
    rw [bestFrom_cons]
    by_cases hc : pairKey r = (e, n)
    · rw [if_pos hc, ih]
      simp [hc]
    · rw [if_neg hc, ih]
      constructor
      · rintro ⟨ho, hall⟩
        exact ⟨ho, fun q hq => by
          rcases List.mem_cons.mp hq with hq | hq
          · exact hq ▸ hc
          · exact hall q hq⟩
      · rintro ⟨ho, hall⟩
        exact ⟨ho, fun q hq => hall q (List.mem_cons_of_mem _ hq)⟩

theorem insertMax_pairKeys (acc : List JoinedRow) (r : JoinedRow) :
    (insertMax acc r).map pairKey =
      if pairKey r ∈ acc.map pairKey then acc.map pairKey
      else acc.map pairKey ++ [pairKey r] := by
  induction acc with
  | nil => simp [insertMax]
  | cons s acc ih =>
    simp only [insertMax, List.map_cons]
    by_cases hsr : pairKey s = pairKey r
    · have hin : pairKey r ∈ pairKey s :: acc.map pairKey := by
        rw [hsr]
        exact List.mem_cons_self _ _
      rw [if_pos hsr, if_pos hin]
      by_cases ht : s.timestamp < r.timestamp <;> simp [ht, hsr]
    · have hrs : ¬pairKey r = pairKey s := fun hc => hsr hc.symm
      rw [if_neg hsr, List.map_cons, ih]
      by_cases hin : pairKey r ∈ acc.map pairKey
      · rw [if_pos hin, if_pos (by simp [hin])]
      · rw [if_neg hin, if_neg (by simp [hrs, hin])]
        rfl

theorem nodup_insertMax {acc : List JoinedRow} (r : JoinedRow)
    (h : (acc.map pairKey).Nodup) : ((insertMax acc r).map pairKey).Nodup := by
  rw [insertMax_pairKeys]
  by_cases hin : pairKey r ∈ acc.map pairKey
  · rwa [if_pos hin]
  · rw [if_neg hin]
    simp [List.nodup_append, h, hin]

theorem nodup_foldl_insertMax (rows : List JoinedRow) {acc : List JoinedRow}
    (h : (acc.map pairKey).Nodup) :
    ((rows.foldl insertMax acc).map pairKey).Nodup := by
  induction rows generalizing acc with
  | nil => exact h
  | cons r rows ih => exact ih (nodup_insertMax r h)

theorem nodup_selectDistinct (rows : List JoinedRow) :
    ((selectDistinct rows).map pairKey).Nodup :=
  nodup_foldl_insertMax rows List.nodup_nil

theorem insertMax_subset {acc : List JoinedRow} {r x : JoinedRow}
    (h : x ∈ insertMax acc r) : x ∈ acc ∨ x = r := by
  induction acc with
  | nil =>
    simp only [insertMax, List.mem_singleton] at h
    exact Or.inr h
  | cons s acc ih =>
    simp only [insertMax] at h
    by_cases hsr : pairKey s = pairKey r
    · rw [if_pos hsr] at h
      rcases List.mem_cons.mp h with h | h
      · by_cases ht : s.timestamp < r.timestamp
        · rw [if_pos ht] at h
          exact Or.inr h
        · rw [if_neg ht] at h
          exact Or.inl (h ▸ List.mem_cons_self s acc)
      · exact Or.inl (List.mem_cons_of_mem _ h)
    · rw [if_neg hsr] at h
      rcases List.mem_cons.mp h with h | h
      · exact Or.inl (h ▸ List.mem_cons_self s acc)
      · rcases ih h with h | h
        · exact Or.inl (List.mem_cons_of_mem _ h)
        · exact Or.inr h

theorem foldl_insertMax_subset {rows acc : List JoinedRow} {x : JoinedRow}
    (h : x ∈ rows.foldl insertMax acc) : x ∈ acc ∨ x ∈ rows := by
  induction rows generalizing acc with
  | nil => exact Or.inl h
  | cons r rows ih =>
    rw [List.foldl_cons] at h
    rcases ih h with h | h
    · rcases insertMax_subset h with h | h
      · exact Or.inl h
      · exact Or.inr (h ▸ List.mem_cons_self r rows)
    · exact Or.inr (List.mem_cons_of_mem _ h)

theorem selectDistinct_subset {rows : List JoinedRow} {x : JoinedRow}
    (h : x ∈ selectDistinct rows) : x ∈ rows := by
  rcases foldl_insertMax_subset h with h | h
  · exact absurd h (List.not_mem_nil x)
  · exact h

theorem mem_candidates_iff {db : Database} {es ns : List String} {t : Int}
    {r : JoinedRow} :
    r ∈ candidates db es ns t ↔
      r ∈ joinRows db ∧ r.entity_id ∈ es ∧ r.feature_name ∈ ns ∧
        r.timestamp ≤ t := by
  simp [candidates, List.mem_filter]

theorem getFeatures_lookup_eq_bestFrom (db : Database) (es ns : List String)
    (t : Int) (e n : String) :
    lookupFeature (getFeatures db es ns t) e n =
      bestFrom none (candidates db es ns t) e n := by
  rw [getFeatures, reshape_lookupFeature,
    ← lookupPair_eq_lastFrom_of_nodup e n (nodup_selectDistinct _),
    selectDistinct_lookupPair]

end FeatureStore

/-- C1: point-in-time correctness of the durable store's `get_features` —
for each requested (entity_id, feature_name) pair the result slot holds a
stored row of that pair with the greatest `timestamp ≤ as_of` (so no
returned row has `timestamp > as_of`), and the slot is omitted from the
result map exactly when no row with `timestamp ≤ as_of` exists for the
pair. -/
theorem get_features_point_in_time (db : Database) (es ns : List String)
    (t : Int) (e n : String) (he : e ∈ es) (hn : n ∈ ns) :
    (∀ r, FeatureStore.lookupFeature (FeatureStore.getFeatures db es ns t) e n
        = some r →
      r ∈ FeatureStore.joinRows db ∧ r.entity_id = e ∧ r.feature_name = n ∧
        r.timestamp ≤ t ∧
        ∀ r₂ ∈ FeatureStore.joinRows db, r₂.entity_id = e →
          r₂.feature_name = n → r₂.timestamp ≤ t →
          r₂.timestamp ≤ r.timestamp) ∧
    (FeatureStore.lookupFeature (FeatureStore.getFeatures db es ns t) e n
        = none ↔
      ∀ r₂ ∈ FeatureStore.joinRows db, r₂.entity_id = e →
        r₂.feature_name = n → ¬r₂.timestamp ≤ t) := by
  simp only [FeatureStore.getFeatures_lookup_eq_bestFrom]
  constructor
  · intro r hr
    obtain ⟨hmem, hmax, -⟩ := FeatureStore.bestFrom_spec hr
    rcases hmem with ⟨hm, hk⟩ | hm
    · obtain ⟨h₁, h₂⟩ : r.entity_id = e ∧ r.feature_name = n := by
        simpa [FeatureStore.pairKey, Prod.ext_iff] using hk
      obtain ⟨hj, -, -, hts⟩ := FeatureStore.mem_candidates_iff.mp hm
      refine ⟨hj, h₁, h₂, hts, ?_⟩
      intro r₂ hr₂ h₂e h₂n h₂t
      refine hmax r₂ (FeatureStore.mem_candidates_iff.mpr
        ⟨hr₂, by rw [h₂e]; exact he, by rw [h₂n]; exact hn, h₂t⟩) ?_
      simp [FeatureStore.pairKey, h₂e, h₂n]
    · exact Option.noConfusion hm
  · rw [FeatureStore.bestFrom_eq_none_iff]
    constructor
    · rintro ⟨-, hall⟩ r₂ hr₂ h₂e h₂n h₂t
      refine hall r₂ (FeatureStore.mem_candidates_iff.mpr
        ⟨hr₂, by rw [h₂e]; exact he, by rw [h₂n]; exact hn, h₂t⟩) ?_
      simp [FeatureStore.pairKey, h₂e, h₂n]
    · intro hall
      refine ⟨rfl, fun q hq hqk => ?_⟩
      obtain ⟨hj, -, -, hts⟩ := FeatureStore.mem_candidates_iff.mp hq
      obtain ⟨hqe, hqn⟩ : q.entity_id = e ∧ q.feature_name = n := by
        simpa [FeatureStore.pairKey, Prod.ext_iff] using hqk
      exact hall q hj hqe hqn hts

/-- C1 witness: the point-in-time theorem applied to the sample database
at a concrete requested pair. -/
theorem get_features_point_in_time_witness :
    ("u" ∈ ["u"]) ∧ ("a" ∈ ["a", "b"]) ∧
    ((∀ r, FeatureStore.lookupFeature
        (FeatureStore.getFeatures exDb ["u"] ["a", "b"] 100) "u" "a" = some r →
      r ∈ FeatureStore.joinRows exDb ∧ r.entity_id = "u" ∧
        r.feature_name = "a" ∧ r.timestamp ≤ 100 ∧
        ∀ r₂ ∈ FeatureStore.joinRows exDb, r₂.entity_id = "u" →
          r₂.feature_name = "a" → r₂.timestamp ≤ 100 →
          r₂.timestamp ≤ r.timestamp) ∧
    (FeatureStore.lookupFeature
        (FeatureStore.getFeatures exDb ["u"] ["a", "b"] 100) "u" "a" = none ↔
      ∀ r₂ ∈ FeatureStore.joinRows exDb, r₂.entity_id = "u" →
        r₂.feature_name = "a" → ¬r₂.timestamp ≤ 100)) :=
  ⟨by simp, by simp,
    get_features_point_in_time exDb ["u"] ["a", "b"] 100 "u" "a"
      (by simp) (by simp)⟩

/-- C6: writing the same batch twice leaves the `feature_values` table in
a state identical to writing it once — the upsert is keyed by
(feature_id, entity_id, timestamp), and a repeated write to the same key
overwrites value and metadata without creating a second row. -/
theorem write_features_idempotent (b st : List ValueRow) :
    FeatureStore.writeFeatures b (FeatureStore.writeFeatures b st) =
      FeatureStore.writeFeatures b st := by
  induction b generalizing st with
  | nil => simp [FeatureStore.writeFeatures]
  | cons r b ih =>
    simp only [FeatureStore.writeFeatures, List.foldl_cons]
    change FeatureStore.writeFeatures b
        (FeatureStore.upsert
          (FeatureStore.writeFeatures b (FeatureStore.upsert st r)) r) =
      FeatureStore.writeFeatures b (FeatureStore.upsert st r)
    by_cases hq : ∃ q ∈ b, FeatureStore.rowKey q = FeatureStore.rowKey r
    · have hc₂ : FeatureStore.containsKey
          (FeatureStore.writeFeatures b (FeatureStore.upsert st r))
          (FeatureStore.rowKey r) = true :=
        FeatureStore.containsKey_writeFeatures_mono b
          (FeatureStore.containsKey_upsert_self st r)
      rw [FeatureStore.writeFeatures_absorb hc₂ hq]
      exact ih (FeatureStore.upsert st r)
    · have hb : ∀ q ∈ b, FeatureStore.rowKey q ≠ FeatureStore.rowKey r :=
        fun q hqm hqe => hq ⟨q, hqm, hqe⟩
      have hlk : FeatureStore.lookupRow
          (FeatureStore.writeFeatures b (FeatureStore.upsert st r))
          (FeatureStore.rowKey r) = some r := by
        rw [FeatureStore.lookupRow_writeFeatures_frame hb (FeatureStore.upsert st r)]
        exact FeatureStore.lookupRow_upsert_self st r
      rw [FeatureStore.upsert_eq_self_of_lookupRow hlk]
      exact ih (FeatureStore.upsert st r)

/-- C10: `write_features` with an empty batch returns successfully as a
complete no-op — no connection is acquired (count 0), no error is raised
even when the store is down, and the table is unchanged. -/
theorem write_features_empty_noop (storeOk : Bool) (table : List ValueRow) :
    FeatureStore.writeFeaturesOp storeOk [] table = Except.ok (table, 0) := rfl

/-- C5: `get_many` returns one slot per key in input order — slot `i` is
the decoded record stored under key `i`, and on a client failure every
slot is absent (`[None] * len(keys)`) instead of an exception, so the
read path falls through to the durable store. -/
theorem get_many_order_preserving_and_soft (c : CacheState) (keys : List String) :
    (FeatureCache.getMany c keys).length = keys.length ∧
    (∀ i : Nat, (FeatureCache.getMany c keys)[i]? =
      (keys[i]?).map (fun k =>
        if c.failing then none
        else (FeatureCache.lookupKey c.entries k).map (·.payload))) ∧
    (c.failing = true → ∀ x ∈ FeatureCache.getMany c keys, x = none) := by
  by_cases hf : c.failing
  · refine ⟨by simp [FeatureCache.getMany, hf], fun i => ?_, fun _ x hx => ?_⟩
    · simp only [FeatureCache.getMany, hf, if_true, List.getElem?_replicate]
      by_cases hi : i < keys.length
      · simp [if_pos hi, List.getElem?_eq_getElem hi]
      · simp [if_neg hi, List.getElem?_eq_none (Nat.le_of_not_lt hi)]
    · simp only [FeatureCache.getMany, hf, if_true] at hx
      exact List.eq_of_mem_replicate hx
  · refine ⟨by simp [FeatureCache.getMany, hf], fun i => ?_, fun hc => absurd hc hf⟩
    simp [FeatureCache.getMany, hf]

/-- C3 counterexample: with a failing client the underlying
scan-and-delete raises, but `invalidate` swallows the error and returns
a successful count of 0 — the error is not surfaced to the caller. -/
theorem invalidate_surfaces_error_counterexample :
    FeatureCache.clientScanDelete exFailingCache "u:*" = Except.error () ∧
    FeatureCache.invalidate exFailingCache "u:*" = Except.ok (exFailingCache, 0) :=
  ⟨rfl, rfl⟩

/-- C3 amended: no cache operation surfaces its failure — `invalidate`
catches client errors and returns count 0 with the state unchanged, just
as `get_many` degrades to all-absent and `set_many` to a dropped write. -/
theorem cache_failures_all_swallowed (c : CacheState) (pattern : String)
    (keys : List String) (data : List (String × CachePayload)) (ttl : Nat) :
    (∃ st n, FeatureCache.invalidate c pattern = Except.ok (st, n)) ∧
    (c.failing = true → FeatureCache.invalidate c pattern = Except.ok (c, 0) ∧
      FeatureCache.getMany c keys = List.replicate keys.length none ∧
      FeatureCache.setMany c data ttl = c) := by
  constructor
  · by_cases hf : c.failing
    · exact ⟨c, 0, by simp [FeatureCache.invalidate, FeatureCache.clientScanDelete, hf]⟩
    · exact ⟨{ c with entries := c.entries.filter (fun p => !FeatureCache.matchesGlob pattern p.1) },
        (c.entries.filter (fun p => FeatureCache.matchesGlob pattern p.1)).length,
        by simp [FeatureCache.invalidate, FeatureCache.clientScanDelete, hf]⟩
  · intro hf
    refine ⟨by simp [FeatureCache.invalidate, FeatureCache.clientScanDelete, hf],
      by simp [FeatureCache.getMany, hf], ?_⟩
    by_cases hd : data.isEmpty
    · simp [FeatureCache.setMany, hd]
    · simp [FeatureCache.setMany, hd, hf]

/-! Membership and key-uniqueness lemmas for the reshape of
`get_features`, used by the serving-route proofs. -/

namespace FeatureStore

theorem setPair_subset {fs : List (String × JoinedRow)} {k : String}
    {v : JoinedRow} {p : String × JoinedRow} (h : p ∈ setPair fs k v) :
    p ∈ fs ∨ p = (k, v) := by
  induction fs with
  | nil =>
    simp only [setPair, List.mem_singleton] at h
    exact Or.inr h
  | cons q rest ih =>
    obtain ⟨k₀, v₀⟩ := q
    simp only [setPair] at h
    by_cases hk : k₀ = k
    · rw [if_pos hk] at h
      rcases List.mem_cons.mp h with h | h
      · exact Or.inr h
      · exact Or.inl (List.mem_cons_of_mem _ h)
    · rw [if_neg hk] at h
      rcases List.mem_cons.mp h with h | h
      · exact Or.inl (h ▸ List.mem_cons_self _ _)
      · rcases ih h with h | h
        · exact Or.inl (List.mem_cons_of_mem _ h)
        · exact Or.inr h

theorem insertNested_bucket_mem {acc : ResultMap} {r₀ : JoinedRow} {e : String}
    {bucket : List (String × JoinedRow)} (hb : (e, bucket) ∈ insertNested acc r₀)
    {n : String} {r : JoinedRow} (hr : (n, r) ∈ bucket) :
    (∃ bucket₀, (e, bucket₀) ∈ acc ∧ (n, r) ∈ bucket₀) ∨
      (r = r₀ ∧ e = r₀.entity_id ∧ n = r₀.feature_name) := by
  induction acc with
  | nil =>
    simp only [insertNested, List.mem_singleton, Prod.mk.injEq] at hb
    obtain ⟨he, hbk⟩ := hb
    subst hbk
    simp only [List.mem_singleton, Prod.mk.injEq] at hr
    exact Or.inr ⟨hr.2, he, hr.1⟩
  | cons q rest ih =>
    obtain ⟨e₀, fs⟩ := q
    simp only [insertNested] at hb
    by_cases h₀ : e₀ = r₀.entity_id
    · rw [if_pos h₀] at hb
      rcases List.mem_cons.mp hb with hb | hb
      · obtain ⟨he, hbk⟩ := Prod.mk.injEq .. ▸ hb
        subst hbk
        rcases setPair_subset hr with hmem | hnew
        · exact Or.inl ⟨fs, by rw [he]; exact List.mem_cons_self _ _, hmem⟩
        · obtain ⟨hn, hrr⟩ := Prod.mk.injEq .. ▸ hnew
          exact Or.inr ⟨hrr, he ▸ h₀, hn⟩
      · exact Or.inl ⟨bucket, List.mem_cons_of_mem _ hb, hr⟩
    · rw [if_neg h₀] at hb
      rcases List.mem_cons.mp hb with hb | hb
      · obtain ⟨he, hbk⟩ := Prod.mk.injEq .. ▸ hb
        subst hbk
        exact Or.inl ⟨bucket, by rw [he]; exact List.mem_cons_self _ _, hr⟩
      · rcases ih hb with ⟨bucket₀, hb₀, hr₀⟩ | hnew
        · exact Or.inl ⟨bucket₀, List.mem_cons_of_mem _ hb₀, hr₀⟩
        · exact Or.inr hnew

theorem foldl_insertNested_mem {rows₀ : List JoinedRow} (l : List JoinedRow) :
    ∀ (acc : ResultMap), (∀ x ∈ l, x ∈ rows₀) →
    (∀ e bucket, (e, bucket) ∈ acc → ∀ n r, (n, r) ∈ bucket →
      r ∈ rows₀ ∧ r.entity_id = e ∧ r.feature_name = n) →
    ∀ e bucket, (e, bucket) ∈ l.foldl insertNested acc → ∀ n r, (n, r) ∈ bucket →
      r ∈ rows₀ ∧ r.entity_id = e ∧ r.feature_name = n := by
  induction l with
  | nil => intro acc _ hacc; exact hacc
  | cons r₀ l ih =>
    intro acc hl hacc
    rw [List.foldl_cons]
    refine ih (insertNested acc r₀) (fun x hx => hl x (List.mem_cons_of_mem _ hx)) ?_
    intro e bucket hb n r hr
    rcases insertNested_bucket_mem hb hr with ⟨bucket₀, hb₀, hr₀⟩ | ⟨hrr, he, hn⟩
    · exact hacc e bucket₀ hb₀ n r hr₀
    · exact ⟨hrr ▸ hl r₀ (List.mem_cons_self _ _), by rw [hrr, he], by rw [hrr, hn]⟩

theorem reshape_mem {rows : List JoinedRow} {e : String}
    {bucket : List (String × JoinedRow)} (hb : (e, bucket) ∈ reshape rows)
    {n : String} {r : JoinedRow} (hr : (n, r) ∈ bucket) :
    r ∈ rows ∧ r.entity_id = e ∧ r.feature_name = n :=
  foldl_insertNested_mem rows [] (fun _ hx => hx) (by simp) e bucket hb n r hr

theorem lookupEntity_mem {m : ResultMap} {e : String}
    {fs : List (String × JoinedRow)} (h : lookupEntity m e = some fs) :
    (e, fs) ∈ m := by
  induction m with
  | nil => exact Option.noConfusion h
  | cons q rest ih =>
    obtain ⟨e₀, fs₀⟩ := q
    simp only [lookupEntity] at h
    by_cases he : e₀ = e
    · rw [if_pos he] at h
      injection h with h
      exact h ▸ he ▸ List.mem_cons_self _ _
    · rw [if_neg he] at h
      exact List.mem_cons_of_mem _ (ih h)

theorem setPair_keys (fs : List (String × JoinedRow)) (k : String) (v : JoinedRow) :
    (setPair fs k v).map Prod.fst =
      if k ∈ fs.map Prod.fst then fs.map Prod.fst
      else fs.map Prod.fst ++ [k] := by
  induction fs with
  | nil => simp [setPair]
  | cons q rest ih =>
    obtain ⟨k₀, v₀⟩ := q
    simp only [setPair, List.map_cons]
    by_cases hk : k₀ = k
    · rw [if_pos hk, if_pos (by rw [hk]; exact List.mem_cons_self _ _)]
      simp [hk]
    · have hkk : ¬k = k₀ := fun hc => hk hc.symm
      rw [if_neg hk, List.map_cons, ih]
      by_cases hin : k ∈ rest.map Prod.fst
      · rw [if_pos hin, if_pos (by simp [hin])]
      · rw [if_neg hin, if_neg (by simp [hkk, hin])]
        rfl

theorem nodup_setPair {fs : List (String × JoinedRow)} (k : String) (v : JoinedRow)
    (h : (fs.map Prod.fst).Nodup) : ((setPair fs k v).map Prod.fst).Nodup := by
  rw [setPair_keys]
  by_cases hin : k ∈ fs.map Prod.fst
  · rwa [if_pos hin]
  · rw [if_neg hin]
    simp [List.nodup_append, h, hin]

theorem insertNested_buckets_nodup {acc : ResultMap}
    (hacc : ∀ e bucket, (e, bucket) ∈ acc → (bucket.map Prod.fst).Nodup)
    (r₀ : JoinedRow) :
    ∀ e bucket, (e, bucket) ∈ insertNested acc r₀ →
      (bucket.map Prod.fst).Nodup := by
  induction acc with
  | nil =>
    intro e bucket hb
    simp only [insertNested, List.mem_singleton, Prod.mk.injEq] at hb
    rw [hb.2]
    simp
  | cons q rest ih =>
    obtain ⟨e₀, fs⟩ := q
    intro e bucket hb
    simp only [insertNested] at hb
    by_cases h₀ : e₀ = r₀.entity_id
    · rw [if_pos h₀] at hb
      rcases List.mem_cons.mp hb with hb | hb
      · obtain ⟨-, hbk⟩ := Prod.mk.injEq .. ▸ hb
        rw [hbk]
        exact nodup_setPair _ _ (hacc e₀ fs (List.mem_cons_self _ _))
      · exact hacc e bucket (List.mem_cons_of_mem _ hb)
    · rw [if_neg h₀] at hb
      rcases List.mem_cons.mp hb with hb | hb
      · obtain ⟨-, hbk⟩ := Prod.mk.injEq .. ▸ hb
        rw [hbk]
        exact hacc e₀ fs (List.mem_cons_self _ _)
      · exact ih (fun e₁ b₁ hb₁ => hacc e₁ b₁ (List.mem_cons_of_mem _ hb₁)) e bucket hb

theorem reshape_buckets_nodup (rows : List JoinedRow) :
    ∀ e bucket, (e, bucket) ∈ reshape rows → (bucket.map Prod.fst).Nodup := by
  rw [reshape]
  generalize hacc : ([] : ResultMap) = acc
  have h₀ : ∀ e bucket, (e, bucket) ∈ acc → (bucket.map Prod.fst).Nodup := by
    rw [← hacc]; simp
  clear hacc
  induction rows generalizing acc with
  | nil => exact h₀
  | cons r rows ih => exact ih _ (insertNested_buckets_nodup h₀ r)

end FeatureStore

/-! Lemmas about the cache SETEX fold used by `set_many`. -/

namespace FeatureCache

theorem lookupKey_setKey_self (es : List (String × CacheEntry)) (k : String)
    (v : CacheEntry) : lookupKey (setKey es k v) k = some v := by
  induction es with
  | nil => simp [setKey, lookupKey]
  | cons q rest ih =>
    obtain ⟨k₀, v₀⟩ := q
    by_cases hk : k₀ = k
    · simp [setKey, hk, lookupKey]
    · simp [setKey, hk, lookupKey, ih]

theorem lookupKey_setKey_frame {es : List (String × CacheEntry)} {k k₁ : String}
    (v : CacheEntry) (h : k₁ ≠ k) :
    lookupKey (setKey es k v) k₁ = lookupKey es k₁ := by
  induction es with
  | nil =>
    have h₁ : ¬k = k₁ := fun hc => h hc.symm
    simp [setKey, lookupKey, h₁]
  | cons q rest ih =>
    obtain ⟨k₀, v₀⟩ := q
    by_cases hk : k₀ = k
    · have h₂ : ¬k = k₁ := fun hc => h hc.symm
      have h₃ : ¬k₀ = k₁ := fun hc => h (hc.symm.trans hk)
      simp [setKey, hk, lookupKey, h₂, h₃]
    · by_cases h₁ : k₀ = k₁
      · simp [setKey, hk, lookupKey, h₁, h]
      · simp [setKey, hk, lookupKey, h₁, ih]

theorem foldl_setKey_frame {data : List (String × CachePayload)} {ttl : Nat}
    {k : String} (h : ∀ p ∈ data, p.1 ≠ k) (es : List (String × CacheEntry)) :
    lookupKey (data.foldl (fun es p => setKey es p.1 ⟨p.2, ttl⟩) es) k =
      lookupKey es k := by
  induction data generalizing es with
  | nil => rfl
  | cons q rest ih =>
    rw [List.foldl_cons,
      ih (fun p hp => h p (List.mem_cons_of_mem _ hp)),
      lookupKey_setKey_frame _ (fun hc => h q (List.mem_cons_self _ _) hc.symm)]

theorem foldl_setKey_lookup {data : List (String × CachePayload)} {ttl : Nat}
    {k : String} {v : CachePayload} (hnd : (data.map Prod.fst).Nodup)
    (hmem : (k, v) ∈ data) (es : List (String × CacheEntry)) :
    lookupKey (data.foldl (fun es p => setKey es p.1 ⟨p.2, ttl⟩) es) k =
      some ⟨v, ttl⟩ := by
  induction data generalizing es with
  | nil => exact absurd hmem (List.not_mem_nil _)
  | cons q rest ih =>
    obtain ⟨k₀, v₀⟩ := q
    rw [List.map_cons, List.nodup_cons] at hnd
    rcases List.mem_cons.mp hmem with hq | hq
    · obtain ⟨hk, hv⟩ := Prod.mk.injEq .. ▸ hq
      subst hk hv
      rw [List.foldl_cons,
        foldl_setKey_frame (fun p hp hc =>
          hnd.1 (List.mem_map.mpr ⟨p, hp, hc⟩)),
        lookupKey_setKey_self]
    · rw [List.foldl_cons]
      exact ih hnd.2 hq _

theorem setMany_lookup {c : CacheState} (hf : c.failing = false)
    (data : List (String × CachePayload)) (ttl : Nat) {k : String}
    {v : CachePayload} (hnd : (data.map Prod.fst).Nodup) (hmem : (k, v) ∈ data) :
    lookupKey (setMany c data ttl).entries k = some ⟨v, ttl⟩ := by
  have hne : ¬data.isEmpty = true := by
    rcases data with _ | _
    · exact absurd hmem (List.not_mem_nil _)
    · simp
  rw [setMany, if_neg hne, if_neg (by rw [hf]; exact Bool.false_ne_true)]
  exact foldl_setKey_lookup hnd hmem c.entries

end FeatureCache

/-- C3 witness: instance of the amended theorem at the failing sample
cache, with the failing-branch consequences evaluated. -/
theorem cache_failures_all_swallowed_witness :
    (∃ st n, FeatureCache.invalidate exFailingCache "u:*" = Except.ok (st, n)) ∧
    (exFailingCache.failing = true →
      FeatureCache.invalidate exFailingCache "u:*" = Except.ok (exFailingCache, 0) ∧
      FeatureCache.getMany exFailingCache ["u:a"] = List.replicate 1 none ∧
      FeatureCache.setMany exFailingCache [("u:a", ⟨.jnum 1, 0, none⟩)] 60 = exFailingCache) :=
  cache_failures_all_swallowed exFailingCache "u:*" ["u:a"] [("u:a", ⟨.jnum 1, 0, none⟩)] 60

/-! Lemmas about the online-read route. -/

namespace Routes

theorem missingOf_eq_nil_iff (pairs : List (String × Option CachePayload)) :
    missingOf pairs = [] ↔ ∀ p ∈ pairs, p.2.isSome = true := by
  rw [missingOf, List.filterMap_eq_nil_iff]
  constructor
  · intro h p hp
    by_cases hs : p.2.isSome
    · exact hs
    · have := h p hp
      rw [if_neg hs] at this
      exact Option.noConfusion this
  · intro h p hp
    rw [if_pos (h p hp)]

theorem all_isSome_of_missing_nil {pairs : List (String × Option CachePayload)}
    (h : missingOf pairs = []) : pairs.all (fun p => p.2.isSome) = true := by
  rw [List.all_eq_true]
  exact fun p hp => (missingOf_eq_nil_iff pairs).mp h p hp

theorem all_isSome_eq_false_of_missing_ne
    {pairs : List (String × Option CachePayload)} (h : missingOf pairs ≠ []) :
    pairs.all (fun p => p.2.isSome) = false := by
  rcases hx : pairs.all (fun p => p.2.isSome) with _ | _
  · rfl
  · exact absurd ((missingOf_eq_nil_iff pairs).mpr (List.all_eq_true.mp hx)) h

theorem mem_missingOf {pairs : List (String × Option CachePayload)} {x : String}
    (h : x ∈ missingOf pairs) : ∃ p ∈ pairs, p.1 = x ∧ p.2 = none := by
  rw [missingOf] at h
  obtain ⟨p, hp, he⟩ := List.mem_filterMap.mp h
  by_cases hs : p.2.isSome
  · rw [if_pos hs] at he
    exact Option.noConfusion he
  · rw [if_neg hs] at he
    injection he with he
    exact ⟨p, hp, he, Option.not_isSome_iff_eq_none.mp hs⟩

theorem mem_hitFeatures {pairs : List (String × Option CachePayload)}
    {p : String × FeatureValue} (h : p ∈ hitFeatures pairs) :
    ∃ q ∈ pairs, q.1 = p.1 := by
  rw [hitFeatures] at h
  obtain ⟨q, hq, he⟩ := List.mem_filterMap.mp h
  rcases hv : q.2 with _ | v
  · rw [hv] at he
    exact Option.noConfusion he
  · rw [hv] at he
    injection he with he
    exact ⟨q, hq, by rw [← he]⟩

theorem mem_dbFeatures {ef : List (String × JoinedRow)} {nowA : Int}
    {p : String × FeatureValue} (h : p ∈ dbFeatures ef nowA) :
    ∃ q ∈ ef, p = (q.1, ⟨q.2.value, q.2.timestamp, some (nowA - q.2.timestamp)⟩) := by
  rw [dbFeatures] at h
  obtain ⟨q, hq, he⟩ := List.mem_map.mp h
  exact ⟨q, hq, he.symm⟩

theorem cachedPairs_fst_mem {c : CacheState} {e : String} {names : List String}
    {p : String × Option CachePayload} (h : p ∈ cachedPairs c e names) :
    p.1 ∈ names := by
  rw [cachedPairs] at h
  exact (List.of_mem_zip h).1

theorem cacheKey_inj {e n₁ n₂ : String} (h : cacheKey e n₁ = cacheKey e n₂) :
    n₁ = n₂ := by
  apply String.ext
  have hd : (e ++ ":").data ++ n₁.data = (e ++ ":").data ++ n₂.data := by
    have := congrArg String.data h
    simpa [cacheKey, String.data_append] using this
  exact List.append_cancel_left hd

theorem entityFeaturesOf_mem {db : Database} {e : String} {names : List String}
    {t : Int} {n : String} {r : JoinedRow}
    (h : (n, r) ∈ entityFeaturesOf db e names t) :
    r ∈ FeatureStore.candidates db [e] names t ∧ r.entity_id = e ∧
      r.feature_name = n := by
  rw [entityFeaturesOf] at h
  rcases hle : FeatureStore.lookupEntity
      (FeatureStore.getFeatures db [e] names t) e with _ | fs
  · rw [hle] at h
    exact absurd h (List.not_mem_nil _)
  · rw [hle] at h
    simp only [Option.getD_some] at h
    have hmem := FeatureStore.lookupEntity_mem hle
    rw [FeatureStore.getFeatures] at hmem
    have hall := FeatureStore.reshape_mem hmem h
    exact ⟨FeatureStore.selectDistinct_subset hall.1, hall.2.1, hall.2.2⟩

theorem entityFeaturesOf_keys_nodup (db : Database) (e : String)
    (names : List String) (t : Int) :
    ((entityFeaturesOf db e names t).map Prod.fst).Nodup := by
  rw [entityFeaturesOf]
  rcases hle : FeatureStore.lookupEntity
      (FeatureStore.getFeatures db [e] names t) e with _ | fs
  · simp
  · simp only [Option.getD_some]
    have hmem := FeatureStore.lookupEntity_mem hle
    rw [FeatureStore.getFeatures] at hmem
    exact FeatureStore.reshape_buckets_nodup _ e fs hmem

theorem getOnlineFeatures_of_no_missing (db : Database) (storeOk : Bool)
    (c : CacheState) (e : String) (names : List String) (nowQ nowA : Int)
    (h : missingOf (cachedPairs c e names) = []) :
    getOnlineFeatures db storeOk c e names nowQ nowA =
      Except.ok (⟨e, hitFeatures (cachedPairs c e names), "cache", true⟩, c, 0) := by
  have hch := all_isSome_of_missing_nil h
  simp only [getOnlineFeatures, h, mkSource, hch, List.isEmpty_nil, if_true,
    Bool.and_self]

theorem getOnlineFeatures_store_down (db : Database) (c : CacheState)
    (e : String) (names : List String) (nowQ nowA : Int)
    (h : missingOf (cachedPairs c e names) ≠ []) :
    getOnlineFeatures db false c e names nowQ nowA = Except.error () := by
  simp only [getOnlineFeatures]
  rw [if_neg (by simpa [List.isEmpty_iff] using h)]
  simp

theorem getOnlineFeatures_store_read (db : Database) (c : CacheState)
    (e : String) (names : List String) (nowQ nowA : Int)
    (h : missingOf (cachedPairs c e names) ≠ []) :
    getOnlineFeatures db true c e names nowQ nowA =
      Except.ok
        (⟨e, hitFeatures (cachedPairs c e names) ++
            dbFeatures
              (entityFeaturesOf db e (missingOf (cachedPairs c e names)) nowQ)
              nowA,
          "database", false⟩,
         (if (dbCacheData e
               (entityFeaturesOf db e (missingOf (cachedPairs c e names)) nowQ)
               nowA).isEmpty then c
          else FeatureCache.setMany c
            (dbCacheData e
              (entityFeaturesOf db e (missingOf (cachedPairs c e names)) nowQ)
              nowA) 3600), 1) := by
  have hch := all_isSome_eq_false_of_missing_ne h
  simp only [getOnlineFeatures]
  rw [if_neg (by simpa [List.isEmpty_iff] using h)]
  simp only [Bool.not_true, Bool.false_eq_true, if_false, mkSource, hch,
    Bool.false_and, Bool.and_eq_true]

theorem zip_self_map {α β : Type} (l : List α) (g : α → β) :
    l.zip (l.map g) = l.map (fun a => (a, g a)) := by
  induction l with
  | nil => rfl
  | cons x xs ih => simp [ih]

theorem cachedPairs_empty_cache (e : String) (names : List String) :
    cachedPairs ⟨[], false⟩ e names =
      names.map (fun n => (n, (none : Option CachePayload))) := by
  rw [cachedPairs]
  have hg : FeatureCache.getMany ⟨[], false⟩ (names.map (cacheKey e)) =
      names.map (fun _ => (none : Option CachePayload)) := by
    show (names.map (cacheKey e)).map
        (fun k => (FeatureCache.lookupKey [] k).map (·.payload)) =
      names.map (fun _ => (none : Option CachePayload))
    rw [List.map_map]
    rfl
  rw [hg, zip_self_map]

theorem missingOf_all_none (names : List String) :
    missingOf (names.map fun n => (n, (none : Option CachePayload))) = names := by
  induction names with
  | nil => rfl
  | cons x xs ih => simp [missingOf] at ih ⊢; exact ih

theorem hitFeatures_all_none (names : List String) :
    hitFeatures (names.map fun n => (n, (none : Option CachePayload))) = [] := by
  simp [hitFeatures]

end Routes

/-- C2 counterexample: a partial cache hit (K = 1 of N = 2, with the
uncached feature found in the store) is tagged `source = "database"`,
not `"mixed"` — the code has no `"mixed"` tag. -/
theorem online_source_mixed_counterexample :
    (Routes.getOnlineFeatures exDb true exCacheA "u" ["a", "b"] 100 100).map
        (fun x => (x.1.source, x.1.features.length)) =
      Except.ok ("database", 2) ∧
    ("database" : String) ≠ "mixed" :=
  ⟨rfl, by decide⟩

/-- C2 amended: the response's source tag is binary — `"cache"` exactly
when every requested feature was a cache hit and `"database"` otherwise
(`"mixed"` is never emitted) — and `cache_hit` is true exactly when
there were no misses. -/
theorem online_source_binary (db : Database) (storeOk : Bool) (c : CacheState)
    (e : String) (names : List String) (nowQ nowA : Int) (res : OnlineResponse)
    (c' : CacheState) (qn : Nat)
    (h : Routes.getOnlineFeatures db storeOk c e names nowQ nowA =
      Except.ok (res, c', qn)) :
    res.cache_hit = (Routes.missingOf (Routes.cachedPairs c e names)).isEmpty ∧
    res.source =
      (if (Routes.missingOf (Routes.cachedPairs c e names)).isEmpty
        then "cache" else "database") ∧
    res.source ≠ "mixed" := by
  by_cases hm : Routes.missingOf (Routes.cachedPairs c e names) = []
  · have hX := (Routes.getOnlineFeatures_of_no_missing
      db storeOk c e names nowQ nowA hm).symm.trans h
    injection hX with hX
    injection hX with hres hrest
    rw [← hres]
    exact ⟨by simp [hm], by simp [hm],
      (by decide : ("cache" : String) ≠ "mixed")⟩
  · cases storeOk with
    | false =>
      rw [Routes.getOnlineFeatures_store_down db c e names nowQ nowA hm] at h
      exact Except.noConfusion h
    | true =>
      have hX := (Routes.getOnlineFeatures_store_read
        db c e names nowQ nowA hm).symm.trans h
      injection hX with hX
      injection hX with hres hrest
      rw [← hres]
      exact ⟨by simp [List.isEmpty_iff, hm], by simp [List.isEmpty_iff, hm],
        (by decide : ("database" : String) ≠ "mixed")⟩

/-- C2 witness: the amended theorem applied to the concrete partial-hit
read, with its hypothesis discharged by evaluation. -/
theorem online_source_binary_witness :
    (⟨"u", [("a", ⟨.jnum 30, 50, some 0⟩), ("b", ⟨.jnum 7, 60, some 40⟩)],
        "database", false⟩ : OnlineResponse).cache_hit =
      (Routes.missingOf (Routes.cachedPairs exCacheA "u" ["a", "b"])).isEmpty ∧
    (⟨"u", [("a", ⟨.jnum 30, 50, some 0⟩), ("b", ⟨.jnum 7, 60, some 40⟩)],
        "database", false⟩ : OnlineResponse).source =
      (if (Routes.missingOf (Routes.cachedPairs exCacheA "u" ["a", "b"])).isEmpty
        then "cache" else "database") ∧
    (⟨"u", [("a", ⟨.jnum 30, 50, some 0⟩), ("b", ⟨.jnum 7, 60, some 40⟩)],
        "database", false⟩ : OnlineResponse).source ≠ "mixed" :=
  online_source_binary exDb true exCacheA "u" ["a", "b"] 100 100 _
    ⟨[("u:a", ⟨⟨.jnum 30, 50, some 0⟩, 60⟩),
      ("u:b", ⟨⟨.jnum 7, 60, some 40⟩, 3600⟩)], false⟩ 1 rfl

/-- C4 counterexample: with the freshness clock reading 40 while the
store row has timestamp 50, the returned `freshness_seconds` is -10 —
negative, not clamped to 0. -/
theorem freshness_clamp_counterexample :
    (Routes.getOnlineFeatures exDb true exEmptyCache "u" ["a"] 100 40).map
        (fun x => x.1.features) =
      Except.ok [("a", ⟨.jnum 30, 50, some (-10)⟩)] ∧
    ((-10 : Int) < 0) :=
  ⟨rfl, by decide⟩

/-- C4 amended: every feature fetched from the durable store on a cache
miss is returned with `freshness_seconds` exactly `now - timestamp` with
no clamping, so it is negative whenever the freshness clock reads
earlier than the stored timestamp. -/
theorem online_freshness_unclamped (db : Database) (storeOk : Bool)
    (c : CacheState) (e : String) (names : List String) (nowQ nowA : Int)
    (res : OnlineResponse) (c' : CacheState) (qn : Nat)
    (h : Routes.getOnlineFeatures db storeOk c e names nowQ nowA =
      Except.ok (res, c', qn)) :
    ∀ p ∈ res.features,
      p ∈ Routes.hitFeatures (Routes.cachedPairs c e names) ∨
        p.2.freshness_seconds = some (nowA - p.2.timestamp) := by
  by_cases hm : Routes.missingOf (Routes.cachedPairs c e names) = []
  · have hX := (Routes.getOnlineFeatures_of_no_missing
      db storeOk c e names nowQ nowA hm).symm.trans h
    injection hX with hX
    injection hX with hres hrest
    rw [← hres]
    exact fun p hp => Or.inl hp
  · cases storeOk with
    | false =>
      rw [Routes.getOnlineFeatures_store_down db c e names nowQ nowA hm] at h
      exact Except.noConfusion h
    | true =>
      have hX := (Routes.getOnlineFeatures_store_read
        db c e names nowQ nowA hm).symm.trans h
      injection hX with hX
      injection hX with hres hrest
      rw [← hres]
      intro p hp
      rcases List.mem_append.mp hp with hp | hp
      · exact Or.inl hp
      · obtain ⟨q, -, hpe⟩ := Routes.mem_dbFeatures hp
        rw [hpe]
        exact Or.inr rfl

/-- C4 witness: the amended theorem applied to the concrete skewed-clock
read, instantiated at the one returned feature. -/
theorem online_freshness_unclamped_witness :
    (("a", (⟨.jnum 30, 50, some (-10)⟩ : FeatureValue)) ∈
        (⟨"u", [("a", ⟨.jnum 30, 50, some (-10)⟩)], "database", false⟩ :
          OnlineResponse).features) ∧
    ((("a", (⟨.jnum 30, 50, some (-10)⟩ : FeatureValue)) ∈
        Routes.hitFeatures (Routes.cachedPairs exEmptyCache "u" ["a"])) ∨
      (⟨.jnum 30, 50, some (-10)⟩ : FeatureValue).freshness_seconds =
        some (40 - (⟨.jnum 30, 50, some (-10)⟩ : FeatureValue).timestamp)) :=
  by
    have h : Routes.getOnlineFeatures exDb true exEmptyCache "u" ["a"] 100 40 =
        Except.ok
          (⟨"u", [("a", ⟨.jnum 30, 50, some (-10)⟩)], "database", false⟩,
            ⟨[("u:a", ⟨⟨.jnum 30, 50, some (-10)⟩, 3600⟩)], false⟩, 1) := rfl
    refine ⟨List.mem_singleton.mpr rfl, ?_⟩
    exact online_freshness_unclamped exDb true exEmptyCache "u" ["a"] 100 40
      ⟨"u", [("a", ⟨.jnum 30, 50, some (-10)⟩)], "database", false⟩
      ⟨[("u:a", ⟨⟨.jnum 30, 50, some (-10)⟩, 3600⟩)], false⟩ 1 h
      ("a", ⟨.jnum 30, 50, some (-10)⟩) (List.mem_singleton.mpr rfl)

/-- C7: with the durable store up, an online read always succeeds — the
returned feature names are a subset of the requested names, and features
absent from both cache and store are silently omitted rather than turned
into an error. -/
theorem online_read_subset_of_requested (db : Database) (c : CacheState)
    (e : String) (names : List String) (nowQ nowA : Int) :
    ∃ res c' qn,
      Routes.getOnlineFeatures db true c e names nowQ nowA =
        Except.ok (res, c', qn) ∧
      ∀ p ∈ res.features, p.1 ∈ names := by
  have hhit : ∀ p ∈ Routes.hitFeatures (Routes.cachedPairs c e names),
      (p : String × FeatureValue).1 ∈ names := by
    intro p hp
    obtain ⟨q, hq, hqe⟩ := Routes.mem_hitFeatures hp
    exact hqe ▸ Routes.cachedPairs_fst_mem hq
  by_cases hm : Routes.missingOf (Routes.cachedPairs c e names) = []
  · exact ⟨_, _, _,
      Routes.getOnlineFeatures_of_no_missing db true c e names nowQ nowA hm,
      hhit⟩
  · refine ⟨_, _, _,
      Routes.getOnlineFeatures_store_read db c e names nowQ nowA hm, ?_⟩
    intro p hp
    rcases List.mem_append.mp hp with hp | hp
    · exact hhit p hp
    · obtain ⟨q, hq, hpe⟩ := Routes.mem_dbFeatures hp
      obtain ⟨hcand, -, hname⟩ := Routes.entityFeaturesOf_mem
        (show (q.1, q.2) ∈ _ from hq)
      have hq1 : q.1 ∈ Routes.missingOf (Routes.cachedPairs c e names) := by
        rw [← hname]
        exact (FeatureStore.mem_candidates_iff.mp hcand).2.2.1
      obtain ⟨p', hp', hpx, -⟩ := Routes.mem_missingOf hq1
      rw [hpe]
      exact hpx ▸ Routes.cachedPairs_fst_mem hp'

/-- C8 counterexample: a durable-store failure while features are still
missing after the cache step surfaces as HTTP 500 through the global
exception handler, not as 503. -/
theorem store_error_status_counterexample :
    Routes.onlineHttpStatus
      (Routes.getOnlineFeatures exDb false exEmptyCache "u" ["a"] 100 100) = 500 ∧
    (500 : Nat) ≠ 503 :=
  ⟨rfl, by decide⟩

/-- C8 amended: if the durable store fails while features are missing
after the cache step, the unhandled exception reaches the global handler
and the request fails with HTTP 500 (not 503); if nothing was missing,
the request succeeds with `source = "cache"` regardless of store
availability. -/
theorem online_store_error_handling (db : Database) (c : CacheState)
    (e : String) (names : List String) (nowQ nowA : Int) :
    (Routes.missingOf (Routes.cachedPairs c e names) ≠ [] →
      Routes.onlineHttpStatus
        (Routes.getOnlineFeatures db false c e names nowQ nowA) = 500) ∧
    (Routes.missingOf (Routes.cachedPairs c e names) = [] → ∀ storeOk,
      Routes.getOnlineFeatures db storeOk c e names nowQ nowA =
        Except.ok
          (⟨e, Routes.hitFeatures (Routes.cachedPairs c e names), "cache", true⟩,
            c, 0)) := by
  constructor
  · intro hm
    rw [Routes.getOnlineFeatures_store_down db c e names nowQ nowA hm]
    rfl
  · intro hm storeOk
    exact Routes.getOnlineFeatures_of_no_missing db storeOk c e names nowQ nowA hm

/-- C8 witness: both branches of the amended theorem at concrete inputs —
a store-down read with a miss answers 500, and a fully cached read
succeeds from cache alone with the store down. -/
theorem online_store_error_handling_witness :
    (Routes.missingOf (Routes.cachedPairs exEmptyCache "u" ["a"]) ≠ [] ∧
      Routes.onlineHttpStatus
        (Routes.getOnlineFeatures exDb false exEmptyCache "u" ["a"] 100 100)
          = 500) ∧
    (Routes.missingOf (Routes.cachedPairs exCacheA "u" ["a"]) = [] ∧
      Routes.getOnlineFeatures exDb false exCacheA "u" ["a"] 100 100 =
        Except.ok
          (⟨"u", Routes.hitFeatures (Routes.cachedPairs exCacheA "u" ["a"]),
            "cache", true⟩, exCacheA, 0)) :=
  ⟨⟨by decide,
    (online_store_error_handling exDb exEmptyCache "u" ["a"] 100 100).1
      (by decide)⟩,
   ⟨by decide,
    (online_store_error_handling exDb exCacheA "u" ["a"] 100 100).2
      (by decide) false⟩⟩

/-- C9 counterexample: the backfill TTL is the literal 3600, not the
configured `cache_ttl_seconds` — with the setting at 100, a cold read
still caches the fetched feature with TTL 3600. -/
theorem cache_ttl_hardcoded_counterexample :
    (Settings.mk 100).cache_ttl_seconds = 100 ∧
    (Routes.getOnlineFeatures exDb true exEmptyCache "u" ["a"] 100 100).map
        (fun x => (FeatureCache.lookupKey x.2.1.entries "u:a").map (·.ttl)) =
      Except.ok (some 3600) ∧
    (3600 : Nat) ≠ 100 :=
  ⟨rfl, rfl, by decide⟩

/-- C9 amended: an online read from an empty, healthy cache answers
`source = "database"` with exactly one durable-store query, and
afterwards every returned feature sits in the cache under its key with
TTL equal to the literal 3600 the route passes to `set_many` (which
coincides with the default of `cache_ttl_seconds` but ignores any other
configured value). -/
theorem online_empty_cache_read (db : Database) (e : String)
    (names : List String) (nowQ nowA : Int) (hne : names ≠ []) :
    ∃ res c',
      Routes.getOnlineFeatures db true ⟨[], false⟩ e names nowQ nowA =
        Except.ok (res, c', 1) ∧
      res.source = "database" ∧ res.cache_hit = false ∧
      ∀ p ∈ res.features,
        FeatureCache.lookupKey c'.entries (Routes.cacheKey e p.1) =
          some ⟨⟨p.2.value, p.2.timestamp, p.2.freshness_seconds⟩, 3600⟩ := by
  have hm : Routes.missingOf (Routes.cachedPairs ⟨[], false⟩ e names) = names := by
    rw [Routes.cachedPairs_empty_cache, Routes.missingOf_all_none]
  have hm' : Routes.missingOf (Routes.cachedPairs ⟨[], false⟩ e names) ≠ [] := by
    rw [hm]
    exact hne
  refine ⟨_, _,
    Routes.getOnlineFeatures_store_read db ⟨[], false⟩ e names nowQ nowA hm',
    rfl, rfl, ?_⟩
  have hhit : Routes.hitFeatures (Routes.cachedPairs ⟨[], false⟩ e names) = [] := by
    rw [Routes.cachedPairs_empty_cache, Routes.hitFeatures_all_none]
  intro p hp
  rw [hhit, List.nil_append] at hp
  obtain ⟨q, hq, hpe⟩ := Routes.mem_dbFeatures hp
  have hcd : (Routes.cacheKey e q.1,
      (⟨q.2.value, q.2.timestamp, some (nowA - q.2.timestamp)⟩ : CachePayload)) ∈
        Routes.dbCacheData e
          (Routes.entityFeaturesOf db e
            (Routes.missingOf (Routes.cachedPairs ⟨[], false⟩ e names)) nowQ)
          nowA :=
    List.mem_map.mpr ⟨q, hq, rfl⟩
  have hcdne : ¬(Routes.dbCacheData e
      (Routes.entityFeaturesOf db e
        (Routes.missingOf (Routes.cachedPairs ⟨[], false⟩ e names)) nowQ)
      nowA).isEmpty = true := by
    rw [List.isEmpty_iff]
    exact List.ne_nil_of_mem hcd
  rw [if_neg hcdne]
  have hnd : ((Routes.dbCacheData e
      (Routes.entityFeaturesOf db e
        (Routes.missingOf (Routes.cachedPairs ⟨[], false⟩ e names)) nowQ)
      nowA).map Prod.fst).Nodup := by
    rw [Routes.dbCacheData, List.map_map]
    have h₁ := Routes.entityFeaturesOf_keys_nodup db e
      (Routes.missingOf (Routes.cachedPairs ⟨[], false⟩ e names)) nowQ
    have h₂ : ((Routes.entityFeaturesOf db e
        (Routes.missingOf (Routes.cachedPairs ⟨[], false⟩ e names)) nowQ).map
          Prod.fst).map (Routes.cacheKey e) |>.Nodup :=
      h₁.map (fun a b hab => Routes.cacheKey_inj hab)
    rw [List.map_map] at h₂
    exact h₂
  have hlk := FeatureCache.setMany_lookup (c := ⟨[], false⟩) rfl _ 3600 hnd hcd
  rw [hpe]
  exact hlk

/-- C9 witness: the amended theorem applied to a concrete cold read. -/
theorem online_empty_cache_read_witness :
    (["a"] : List String) ≠ [] ∧
    (∃ res c',
      Routes.getOnlineFeatures exDb true ⟨[], false⟩ "u" ["a"] 100 100 =
        Except.ok (res, c', 1) ∧
      res.source = "database" ∧ res.cache_hit = false ∧
      ∀ p ∈ res.features,
        FeatureCache.lookupKey c'.entries (Routes.cacheKey "u" p.1) =
          some ⟨⟨p.2.value, p.2.timestamp, p.2.freshness_seconds⟩, 3600⟩) :=
  ⟨by simp, online_empty_cache_read exDb "u" ["a"] 100 100 (by simp)⟩

end FeatureStoreSpec
